import Mathlib

/-!
# Verification of the admin dashboard's aggregation core

A shallow embedding of the event-scoped aggregation and grouping logic of
the Stanford-Speakers-Bureau admin dashboard:

* the row normalizer and waitlist grouping engine of the `/api/waitlist`
  route handler (`GET`) and of the server page loader `getInitialWaitlist`
  (both implement the same fold, grouping joined waitlist rows by event id
  into an insertion-ordered collection of `EventGroup`s);
* the admin verification function `verifyAdminRequest`;
* the response shapes of the waitlist route and page loader;
* the client-side re-fetch state machine of `WaitlistViewerClient`;
* the sales bucketing engine of the `/api/events/{id}/sales` endpoint
  (modelled from the design document, its implementation being outside
  the sources at hand).

JavaScript strings become `String`, nullable fields become `Option`,
numbers in counting positions become `Nat`, and numeric row fields become
`Int`.  A JS object keyed by UUID strings preserves insertion order, so the
per-request `groupedByEvent` record is embedded as an insertion-ordered
association list.
-/

/-- The subset of event columns selected by the waitlist queries
(`id, name, capacity, reserved, start_time_date, venue`). -/
structure EventDetails where
  id : String
  name : Option String
  capacity : Int
  reserved : Option Int
  start_time_date : Option String
  venue : Option String
deriving DecidableEq, Repr, Inhabited

/-- The `events` relation attached to a joined waitlist row.  The query
engine may encode the one-to-one join as an array, a scalar object, or
null (absent). -/
inductive EventsRel where
  | rel_array : List EventDetails → EventsRel
  | rel_object : EventDetails → EventsRel
  | rel_null : EventsRel
deriving DecidableEq, Repr

/-- One raw joined waitlist row as returned by the grouped query
(`id, email, referral, position, created_at, event_id, events(...)`).
`event_id` is nullable; the empty string is JS-falsy and treated like
null by the code's truthiness checks. -/
structure WaitlistRow where
  id : String
  email : String
  referral : Option String
  position : Int
  created_at : String
  event_id : Option String
  events : EventsRel
deriving DecidableEq, Repr

/-- The per-entry projection pushed onto a group's waitlist
(`{id, email, referral, position, created_at}`). -/
structure WaitlistEntry where
  id : String
  email : String
  referral : Option String
  position : Int
  created_at : String
deriving DecidableEq, Repr

/-- One output group: event details, its ordered waitlist, and the
`totalCount` counter incremented on each push. -/
structure EventGroup where
  event : EventDetails
  waitlist : List WaitlistEntry
  totalCount : Nat
deriving DecidableEq, Repr

/-- Projection of a raw row to the entry pushed on the group's waitlist. -/
def entryOf (r : WaitlistRow) : WaitlistEntry :=
  { id := r.id, email := r.email, referral := r.referral
  , position := r.position, created_at := r.created_at }

/-- Resolution of the nested `events` relation: an array yields its first
element (`entry.events[0] || null`), a scalar object is used directly,
null resolves to nothing. -/
def resolveEventData : EventsRel → Option EventDetails
  | .rel_array es => es.head?
  | .rel_object e => some e
  | .rel_null => none

/-- The row normalizer: the sequential early-return checks of the grouping
loop.  A row yields `(eventId, eventData)` exactly when its `event_id` is
truthy and the resolved nested event record exists with a truthy `id`;
otherwise the row is dropped (`return` inside `forEach`). -/
def normalizeRow (r : WaitlistRow) : Option (String × EventDetails) :=
  match r.event_id with
  | none => none
  | some eid =>
    if eid = "" then none
    else
      match resolveEventData r.events with
      | none => none
      | some ed => if ed.id = "" then none else some (eid, ed)

/-- One iteration of the grouping `forEach`: skip invalid rows, lazily
create the group keyed by `event_id` (insertion order: appended at the
end), then push the entry and bump `totalCount` on the group with that
key. -/
def groupStep (acc : List (String × EventGroup)) (r : WaitlistRow) :
    List (String × EventGroup) :=
  match normalizeRow r with
  | none => acc
  | some (eid, ed) =>
    let acc2 := if acc.any (fun p => p.1 = eid) then acc
                else acc ++ [(eid, { event := ed, waitlist := [], totalCount := 0 })]
    acc2.map (fun p =>
      if p.1 = eid then
        (p.1, { event := p.2.event
              , waitlist := p.2.waitlist ++ [entryOf r]
              , totalCount := p.2.totalCount + 1 })
      else p)

/-- The `groupedByEvent` record after the whole `forEach` pass. -/
def groupByEvent (rows : List WaitlistRow) : List (String × EventGroup) :=
  rows.foldl groupStep []

/-- `Object.values(groupedByEvent)`: the leaderboard sequence of groups. -/
def leaderboard (rows : List WaitlistRow) : List EventGroup :=
  (groupByEvent rows).map Prod.snd

/-- Whether the row survives normalization. -/
def rowValid (r : WaitlistRow) : Bool :=
  (normalizeRow r).isSome

/-- The grouping key of a row (its truthy `event_id`); `""` for dropped
rows, which never reach a group. -/
def keyOf (r : WaitlistRow) : String :=
  ((normalizeRow r).map Prod.fst).getD ""

/-- First-occurrence deduplication: the distinct elements of a list in the
order each one is first seen. -/
def firstSeen : List String → List String
  | [] => []
  | k :: ks => k :: (firstSeen ks).filter (fun k2 => k2 ≠ k)

/-- The group keys the engine produces: distinct valid `event_id`s in
first-occurrence order. -/
def groupKeys (rows : List WaitlistRow) : List String :=
  firstSeen ((rows.filter rowValid).map keyOf)

/-- The valid rows carrying a given key, in input order. -/
def rowsFor (rows : List WaitlistRow) (k : String) : List WaitlistRow :=
  rows.filter (fun r => rowValid r && keyOf r = k)

/-- The event details stored in the group keyed `k`: those resolved from
the first valid row with that key (later rows never overwrite them). -/
def eventFor (rows : List WaitlistRow) (k : String) : EventDetails :=
  match (rowsFor rows k).head? with
  | some r => ((normalizeRow r).map Prod.snd).getD default
  | none => default

/-- The group the engine produces for key `k`. -/
def groupFor (rows : List WaitlistRow) (k : String) : EventGroup :=
  { event := eventFor rows k
  , waitlist := (rowsFor rows k).map entryOf
  , totalCount := (rowsFor rows k).length }


/-! ## Admin verification and route responses -/

/-- Result of `verifyAdminRequest`: either `{authorized: false, error}` or
`{authorized: true, email, adminClient}` (the privileged client itself
carries no data relevant to the properties at hand). -/
inductive AdminVerificationResult where
  | unauthorized : String → AdminVerificationResult
  | authorized : String → AdminVerificationResult
deriving DecidableEq, Repr

/-- JavaScript's `s.split(",")` on a character list: splitting on every
comma, keeping empty fragments (so `""` splits to `[""]`). -/
def splitCommaChars : List Char → List String
  | [] => [""]
  | c :: cs =>
    let rest := splitCommaChars cs
    if c = ',' then "" :: rest
    else
      match rest with
      | [] => [String.mk [c]]
      | w :: ws => String.mk (c :: w.data) :: ws

/-- JavaScript's `s.split(",")`. -/
def splitComma (s : String) : List String := splitCommaChars s.data

/-- `verifyAdminRequest`: the inputs model the outcome of
`supabase.auth.getUser()` (`userError`, and the user's email — `none` when
the user object or its email is absent, the empty string being JS-falsy as
well) together with the `roles` table (email to nullable roles string);
the `.single()` lookup yields the first matching record.  The first guard
mirrors `if (userError || !user?.email)`; the second mirrors
`if (!adminRecord || !adminRecord.roles?.split(",").includes("admin"))`,
so the caller is an admin exactly when the record exists and its
comma-separated roles string contains the exact token `admin`. -/
def verifyAdminRequest (userError : Bool) (userEmail : Option String)
    (rolesTable : List (String × Option String)) : AdminVerificationResult :=
  if userError || userEmail.getD "" = "" then .unauthorized "Not authenticated"
  else
    let e := userEmail.getD ""
    match (rolesTable.find? (fun p => p.1 = e)).map Prod.snd with
    | some (some rs) =>
      if (splitComma rs).contains "admin" then .authorized e
      else .unauthorized "Not authorized"
    | _ => .unauthorized "Not authorized"

/-- The `authorized` flag of the verification result. -/
def isAuthorized : AdminVerificationResult → Bool
  | .authorized _ => true
  | .unauthorized _ => false

/-- Body of a waitlist route response: either the single generic `error`
field or one of the two success envelopes. -/
inductive ResponseBody where
  | errorBody : String → ResponseBody
  | groupedBody : List EventGroup → ResponseBody
  | singleBody : EventDetails → List WaitlistEntry → Nat → ResponseBody
deriving DecidableEq, Repr

/-- An HTTP response of the route handler. -/
structure ApiResponse where
  status : Nat
  body : ResponseBody
deriving DecidableEq, Repr

/-- Outcome of the waitlist row fetch against the persistence layer. -/
inductive FetchOutcome where
  | fetchError : FetchOutcome
  | fetchRows : List WaitlistRow → FetchOutcome
deriving DecidableEq, Repr

/-- The grouped branch of the `/api/waitlist` route handler `GET` (no
`eventId` query parameter): 401 with the verification error on denial,
500 on fetch failure, otherwise 200 with the grouped leaderboard. -/
def waitlistGETGrouped (auth : AdminVerificationResult)
    (fetch : FetchOutcome) : ApiResponse :=
  match auth with
  | .unauthorized err => { status := 401, body := .errorBody err }
  | .authorized _ =>
    match fetch with
    | .fetchError => { status := 500, body := .errorBody "Failed to fetch waitlist" }
    | .fetchRows rows => { status := 200, body := .groupedBody (leaderboard rows) }

/-- The server page loader `getInitialWaitlist`: authorization denial and
fetch failure both collapse to the empty grouped default. -/
def getInitialWaitlist (auth : AdminVerificationResult)
    (fetch : FetchOutcome) : List EventGroup × Bool :=
  match auth with
  | .unauthorized _ => ([], true)
  | .authorized _ =>
    match fetch with
    | .fetchError => ([], true)
    | .fetchRows rows => (leaderboard rows, true)

/-! ## Client-side re-fetch state machine -/

/-- The displayed waitlist state of `WaitlistViewerClient`. -/
structure ClientState where
  displayed : List EventGroup
deriving DecidableEq, Repr

/-- Observable events of the client fetch logic: a filter change invokes
`fetchWaitlist` (the displayed data is not touched at start), and a
response completion unconditionally stores its payload
(`setWaitlist(data.leaderboard)` — the code carries no request generation
tag and no abort controller, so completions land in arrival order). -/
inductive ClientEvent where
  | startFetch : String → ClientEvent
  | completeFetch : String → List EventGroup → ClientEvent
deriving DecidableEq, Repr

/-- Effect of one event on the client state. -/
def applyEvent (s : ClientState) : ClientEvent → ClientState
  | .startFetch _ => s
  | .completeFetch _ res => { displayed := res }

/-- An interleaving of fetch starts and completions, applied in order. -/
def runEvents (s : ClientState) (evs : List ClientEvent) : ClientState :=
  evs.foldl applyEvent s

/-! ## Sales bucketing engine -/

/-- One hourly bucket of the ticket-sales time series. -/
structure SalesBucket where
  time : Nat
  count : Nat
  cumulative : Nat
deriving DecidableEq, Repr

/-- Hour index of an epoch-second timestamp (truncation to the containing
clock hour). -/
def hourOf (t : Nat) : Nat := t / 3600

/-- Number of sales whose timestamp falls in clock hour `h`. -/
def countIn (ts : List Nat) (h : Nat) : Nat :=
  (ts.filter (fun t => hourOf t = h)).length

/-- Running-sum pass turning ordered `(hour, count)` pairs into buckets. -/
def withCumulative (acc : Nat) : List (Nat × Nat) → List SalesBucket
  | [] => []
  | (h, c) :: rest =>
    { time := h * 3600, count := c, cumulative := acc + c } :: withCumulative (acc + c) rest

/-- Earliest hour among the timestamps (the first sale's hour once the
input is sorted ascending). -/
def minHour : List Nat → Option Nat
  | [] => none
  | t :: ts =>
    match minHour ts with
    | none => some (hourOf t)
    | some m => some (min (hourOf t) m)

/-- Latest hour among the timestamps (the last sale's hour once the input
is sorted ascending). -/
def maxHour : List Nat → Option Nat
  | [] => none
  | t :: ts =>
    match maxHour ts with
    | none => some (hourOf t)
    | some m => some (max (hourOf t) m)

/-- Modelled from the spec: the Sales Bucketing Engine of the
`/api/events/{eventId}/sales` endpoint, whose route handler is not among
the sources at hand (only its client consumer `TicketSalesGraph` is).
Per the design: truncate each sale timestamp to the start of its clock
hour, generate a dense contiguous bucket sequence spanning the first
sale's hour to the last sale's hour inclusive (the recommended dense
choice, hours with zero sales appearing with `count = 0`), and compute
`cumulative` by a running-sum pass; empty input yields no buckets. -/
def salesBuckets (ts : List Nat) : List SalesBucket :=
  match minHour ts, maxHour ts with
  | some lo, some hi =>
    withCumulative 0 (((List.range (hi + 1 - lo)).map (fun i => lo + i)).map
      (fun h => (h, countIn ts h)))
  | _, _ => []

/-- Modelled from the spec: `totalTickets` is the final bucket's
cumulative value, `0` when there are no buckets. -/
def totalTickets (ts : List Nat) : Nat :=
  match (salesBuckets ts).getLast? with
  | some b => b.cumulative
  | none => 0

/-! ## Concrete sample data (used by witnesses and counterexamples) -/

/-- A sample event record. -/
def exEvA : EventDetails :=
  { id := "A", name := some "Event A", capacity := 100
  , reserved := some 5, start_time_date := none, venue := some "Hall" }

/-- A second sample event record. -/
def exEvB : EventDetails :=
  { id := "B", name := none, capacity := 50
  , reserved := none, start_time_date := none, venue := none }

/-- A sample joined waitlist row. -/
def exRow (i : String) (eid : Option String) (ev : EventsRel) (pos : Int) :
    WaitlistRow :=
  { id := i, email := i ++ "@stanford.edu", referral := none
  , position := pos, created_at := "2025-01-01", event_id := eid, events := ev }

/-- A sample row dropped by normalization (null nested relation). -/
def exBadRow : WaitlistRow := exRow "bad" (some "A") .rel_null 9

/-- A sample input mixing valid rows for two events with every kind of
dropped row. -/
def exRows : List WaitlistRow :=
  [ exRow "r1" (some "A") (.rel_object exEvA) 1
  , exRow "r2" (some "B") (.rel_array [exEvB]) 1
  , exRow "r3" (some "A") (.rel_array [exEvA]) 2
  , exRow "r4" none (.rel_object exEvA) 3
  , exRow "r5" (some "A") (.rel_array []) 4
  , exRow "r6" (some "B") .rel_null 2
  , exRow "r7" (some "C") (.rel_object { exEvA with id := "" }) 1 ]

/-- A sample non-empty group payload for the client model. -/
def demoGroup : EventGroup :=
  { event := exEvB, waitlist := [entryOf (exRow "r2" (some "B") (.rel_array [exEvB]) 1)]
  , totalCount := 1 }

/-! ## Helper lemmas on the grouping fold -/

theorem groupStep_invalid {r : WaitlistRow} (acc : List (String × EventGroup))
    (h : normalizeRow r = none) : groupStep acc r = acc := by
  simp [groupStep, h]

theorem groupByEvent_concat (rows : List WaitlistRow) (r : WaitlistRow) :
    groupByEvent (rows ++ [r]) = groupStep (groupByEvent rows) r := by
  simp [groupByEvent, List.foldl_append]

theorem rowValid_of_normalize {r : WaitlistRow} {eid : String} {ed : EventDetails}
    (h : normalizeRow r = some (eid, ed)) : rowValid r = true := by
  simp [rowValid, h]

theorem keyOf_of_normalize {r : WaitlistRow} {eid : String} {ed : EventDetails}
    (h : normalizeRow r = some (eid, ed)) : keyOf r = eid := by
  simp [keyOf, h]

theorem rowValid_false {r : WaitlistRow} (h : normalizeRow r = none) :
    rowValid r = false := by
  simp [rowValid, h]

theorem mem_firstSeen {a : String} : ∀ {l : List String}, a ∈ firstSeen l ↔ a ∈ l := by
  intro l
  induction l with
  | nil => simp [firstSeen]
  | cons k ks ih =>
    by_cases hak : a = k
    · subst hak; simp [firstSeen]
    · simp [firstSeen, List.mem_filter, hak, ih]

theorem nodup_firstSeen : ∀ (l : List String), (firstSeen l).Nodup := by
  intro l
  induction l with
  | nil => simp [firstSeen]
  | cons k ks ih =>
    simp only [firstSeen, List.nodup_cons]
    constructor
    · intro hmem
      exact (by simpa using (List.mem_filter.mp hmem).2)
    · exact ih.filter _

theorem firstSeen_concat (k : String) :
    ∀ (l : List String),
      firstSeen (l ++ [k]) =
        if k ∈ l then firstSeen l else firstSeen l ++ [k] := by
  intro l
  induction l with
  | nil => simp [firstSeen]
  | cons a as ih =>
    by_cases hk : k = a
    · subst hk
      by_cases hmem : k ∈ as
      · simp [firstSeen, ih, hmem]
      · simp [firstSeen, ih, hmem, List.filter_append]
    · by_cases hmem : k ∈ as
      · simp [firstSeen, ih, hmem, hk, Ne.symm hk]
      · have : ¬ k ∈ a :: as := by simp [hk, hmem]
        simp [firstSeen, ih, hmem, this, List.filter_append, hk]

theorem rowsFor_concat (rows : List WaitlistRow) (r : WaitlistRow) (k : String) :
    rowsFor (rows ++ [r]) k =
      rowsFor rows k ++ (if rowValid r && keyOf r = k then [r] else []) := by
  by_cases h : (rowValid r && decide (keyOf r = k)) = true
  · simp [rowsFor, List.filter_append, h]
  · simp [rowsFor, List.filter_append, h]

theorem rowsFor_eq_filter_filter (rows : List WaitlistRow) (k : String) :
    rowsFor rows k = (rows.filter rowValid).filter (fun r => keyOf r = k) := by
  induction rows with
  | nil => simp [rowsFor]
  | cons r rs ih =>
    by_cases hv : rowValid r = true
    · by_cases hk : keyOf r = k
      · simp [rowsFor, List.filter_cons, hv, hk] at ih ⊢; exact ih
      · simp [rowsFor, List.filter_cons, hv, hk] at ih ⊢; exact ih
    · simp [rowsFor, List.filter_cons, hv, Bool.false_and] at ih ⊢; exact ih

theorem mem_groupKeys_iff (rows : List WaitlistRow) (k : String) :
    k ∈ groupKeys rows ↔ rowsFor rows k ≠ [] := by
  rw [groupKeys, mem_firstSeen, rowsFor_eq_filter_filter]
  constructor
  · intro hmem
    rcases List.mem_map.mp hmem with ⟨r, hr, hrk⟩
    intro hnil
    have : r ∈ (rows.filter rowValid).filter (fun r => keyOf r = k) := by
      refine List.mem_filter.mpr ⟨hr, by simp [hrk]⟩
    simp [hnil] at this
  · intro hne
    rcases List.exists_mem_of_ne_nil _ hne with ⟨r, hr⟩
    rcases List.mem_filter.mp hr with ⟨hr1, hr2⟩
    exact List.mem_map.mpr ⟨r, hr1, by simpa using hr2⟩

/-- Keys of the association list built by mapping over a key list. -/
theorem any_key_map (l : List String) (f : String → EventGroup) (a : String) :
    ((l.map (fun k => (k, f k))).any (fun p => p.1 = a)) = true ↔ a ∈ l := by
  simp [List.any_eq_true]

theorem groupByEvent_eq (rows : List WaitlistRow) :
    groupByEvent rows = (groupKeys rows).map (fun k => (k, groupFor rows k)) := by
  induction rows using List.reverseRecOn with
  | nil => simp [groupByEvent, groupKeys, rowsFor, firstSeen]
  | append_singleton rows r ih =>
    rw [groupByEvent_concat, ih]
    cases hn : normalizeRow r with
    | none =>
      rw [groupStep_invalid _ hn]
      have hval : rowValid r = false := rowValid_false hn
      have hkeys : groupKeys (rows ++ [r]) = groupKeys rows := by
        simp [groupKeys, List.filter_append, hval]
      have hrf : ∀ k, rowsFor (rows ++ [r]) k = rowsFor rows k := by
        intro k; rw [rowsFor_concat]; simp [hval]
      have hgf : ∀ k, groupFor (rows ++ [r]) k = groupFor rows k := by
        intro k; simp [groupFor, eventFor, hrf]
      rw [hkeys]
      exact (List.map_congr_left (fun k _ => by rw [hgf])).symm
    | some p =>
      obtain ⟨eid, ed⟩ := p
      have hval : rowValid r = true := rowValid_of_normalize hn
      have hkey : keyOf r = eid := keyOf_of_normalize hn
      have hvk : (rows ++ [r]).filter rowValid = rows.filter rowValid ++ [r] := by
        simp [List.filter_append, hval]
      have hkeys : groupKeys (rows ++ [r]) =
          if eid ∈ (rows.filter rowValid).map keyOf then groupKeys rows
          else groupKeys rows ++ [eid] := by
        simp only [groupKeys, hvk, List.map_append, List.map_cons, List.map_nil, hkey]
        exact firstSeen_concat eid _
      have hmemiff : eid ∈ groupKeys rows ↔ eid ∈ (rows.filter rowValid).map keyOf := by
        simp [groupKeys, mem_firstSeen]
      have hrf_ne : ∀ k, k ≠ eid → rowsFor (rows ++ [r]) k = rowsFor rows k := by
        intro k hk
        rw [rowsFor_concat]
        simp [hkey, Ne.symm hk]
      have hrf_eq : rowsFor (rows ++ [r]) eid = rowsFor rows eid ++ [r] := by
        rw [rowsFor_concat]; simp [hkey, hval]
      have hgf_ne : ∀ k, k ≠ eid → groupFor (rows ++ [r]) k = groupFor rows k := by
        intro k hk; simp [groupFor, eventFor, hrf_ne k hk]
      by_cases hc : eid ∈ groupKeys rows
      · -- key already present: no creation, update in place
        have hcond : (((groupKeys rows).map fun k => (k, groupFor rows k)).any
            (fun p => p.1 = eid)) = true := (any_key_map _ _ _).mpr hc
        have hne : rowsFor rows eid ≠ [] := (mem_groupKeys_iff rows eid).mp hc
        have hgf_eq : groupFor (rows ++ [r]) eid =
            { event := (groupFor rows eid).event
            , waitlist := (groupFor rows eid).waitlist ++ [entryOf r]
            , totalCount := (groupFor rows eid).totalCount + 1 } := by
          simp only [groupFor, eventFor, hrf_eq, List.map_append, List.length_append,
            List.map_cons, List.map_nil, List.length_cons, List.length_nil]
          rw [List.head?_append]
          cases hh : (rowsFor rows eid).head? with
          | none => exact absurd (List.head?_eq_none_iff.mp hh) hne
          | some r0 => simp
        rw [hkeys, if_pos (hmemiff.mp hc)]
        simp only [groupStep, hn, hcond, if_true, List.map_map]
        refine List.map_congr_left ?_
        intro k hkmem
        by_cases hk : k = eid
        · subst hk
          simp [Function.comp_apply, hgf_eq]
        · simp only [Function.comp_apply, if_neg hk, hgf_ne k hk]
      · -- new key: group lazily created at the end, then updated
        have hcond : (((groupKeys rows).map fun k => (k, groupFor rows k)).any
            (fun p => p.1 = eid)) = false := by
          rw [Bool.eq_false_iff]
          intro hx
          exact hc ((any_key_map _ _ _).mp hx)
        have hempty : rowsFor rows eid = [] := by
          by_contra hne
          exact hc ((mem_groupKeys_iff rows eid).mpr hne)
        have hgf_new : groupFor (rows ++ [r]) eid =
            { event := ed, waitlist := [entryOf r], totalCount := 1 } := by
          simp [groupFor, eventFor, hrf_eq, hempty, hn]
        rw [hkeys, if_neg (fun hx => hc (hmemiff.mpr hx))]
        simp only [groupStep, hn, hcond, Bool.false_eq_true, if_false, List.map_append,
          List.map_map, List.map_cons, List.map_nil]
        congr 1
        · refine List.map_congr_left ?_
          intro k hkmem
          have hk : k ≠ eid := fun h => hc (h ▸ hkmem)
          simp only [Function.comp_apply, if_neg hk, hgf_ne k hk]
        · simp [hgf_new]

/-- Partitioning a list by a covering, duplicate-free list of keys and
flattening the parts back together yields a permutation of the list. -/
theorem flatten_filter_perm {α κ : Type} [DecidableEq κ] (key : α → κ) :
    ∀ (ks : List κ) (l : List α), ks.Nodup → (∀ x ∈ l, key x ∈ ks) →
      ((ks.map (fun k => l.filter (fun x => key x = k))).flatten).Perm l := by
  intro ks
  induction ks with
  | nil =>
    intro l _ hcov
    have hl : l = [] := List.eq_nil_iff_forall_not_mem.mpr
      (fun x hx => by simpa using hcov x hx)
    simp [hl]
  | cons k ks ih =>
    intro l hnd hcov
    have hnd' := List.nodup_cons.mp hnd
    simp only [List.map_cons, List.flatten_cons]
    have htail : ks.map (fun k2 => l.filter (fun x => key x = k2)) =
        ks.map (fun k2 => (l.filter (fun x => ¬ key x = k)).filter
          (fun x => key x = k2)) := by
      refine List.map_congr_left ?_
      intro k2 hk2
      have hkk : k2 ≠ k := fun h => hnd'.1 (h ▸ hk2)
      rw [List.filter_filter]
      refine (List.filter_congr ?_).symm
      intro x hx
      by_cases hxk : key x = k2
      · have hnk : ¬ key x = k := fun h => hkk (hxk.symm.trans h)
        simp [hxk, hnk, hkk]
      · simp [hxk]
    rw [htail]
    have hcov' : ∀ x ∈ l.filter (fun x => ¬ key x = k), key x ∈ ks := by
      intro x hx
      rcases List.mem_filter.mp hx with ⟨hxl, hxk⟩
      have hnk : ¬ key x = k := by simpa using hxk
      rcases List.mem_cons.mp (hcov x hxl) with h | h
      · exact absurd h hnk
      · exact h
    have hperm2 := ih (l.filter (fun x => ¬ key x = k)) hnd'.2 hcov'
    refine (hperm2.append_left _).trans ?_
    have h3 := List.filter_append_perm (fun x => decide (key x = k)) l
    simpa [decide_not] using h3

theorem groupKeys_cover (rows : List WaitlistRow) :
    ∀ x ∈ rows.filter rowValid, keyOf x ∈ groupKeys rows := by
  intro x hx
  exact mem_firstSeen.mpr (List.mem_map_of_mem keyOf hx)

theorem mem_leaderboard_iff (rows : List WaitlistRow) (g : EventGroup) :
    g ∈ leaderboard rows ↔ ∃ k ∈ groupKeys rows, g = groupFor rows k := by
  rw [leaderboard, groupByEvent_eq, List.map_map]
  simp [eq_comm]

theorem totalCount_eq_length_of_mem {rows : List WaitlistRow} {g : EventGroup}
    (h : g ∈ leaderboard rows) : g.totalCount = g.waitlist.length := by
  rcases (mem_leaderboard_iff rows g).mp h with ⟨k, _, rfl⟩
  simp [groupFor]

theorem waitlist_ne_nil_of_mem {rows : List WaitlistRow} {g : EventGroup}
    (h : g ∈ leaderboard rows) : g.waitlist ≠ [] := by
  rcases (mem_leaderboard_iff rows g).mp h with ⟨k, hk, rfl⟩
  have hne : rowsFor rows k ≠ [] := (mem_groupKeys_iff rows k).mp hk
  simp [groupFor, hne]

theorem leaderboard_flatten_perm (rows : List WaitlistRow) :
    (((leaderboard rows).map EventGroup.waitlist).flatten).Perm
      ((rows.filter rowValid).map entryOf) := by
  rw [leaderboard, groupByEvent_eq, List.map_map, List.map_map]
  have hmc : (groupKeys rows).map ((EventGroup.waitlist ∘ Prod.snd) ∘ fun k => (k, groupFor rows k)) =
      (groupKeys rows).map
        (fun k => ((rows.filter rowValid).filter (fun x => keyOf x = k)).map entryOf) := by
    refine List.map_congr_left ?_
    intro k _
    simp [groupFor, rowsFor_eq_filter_filter]
  rw [hmc]
  have hmaps : ((groupKeys rows).map
        (fun k => ((rows.filter rowValid).filter (fun x => keyOf x = k)).map entryOf)) =
      ((groupKeys rows).map
        (fun k => (rows.filter rowValid).filter (fun x => keyOf x = k))).map (List.map entryOf) := by
    rw [List.map_map]
    rfl
  rw [hmaps, ← List.map_flatten]
  exact (flatten_filter_perm keyOf (groupKeys rows) (rows.filter rowValid)
    (nodup_firstSeen _) (groupKeys_cover rows)).map entryOf

theorem leaderboard_count_sum (rows : List WaitlistRow) :
    ((leaderboard rows).map EventGroup.totalCount).sum = (rows.filter rowValid).length := by
  have hlen := (leaderboard_flatten_perm rows).length_eq
  rw [List.length_flatten, List.map_map, List.length_map] at hlen
  have hmc : (leaderboard rows).map (List.length ∘ EventGroup.waitlist) =
      (leaderboard rows).map EventGroup.totalCount := by
    refine List.map_congr_left ?_
    intro g hg
    exact (totalCount_eq_length_of_mem hg).symm
  rw [hmc] at hlen
  exact hlen

/-! ## Lemmas on the sales bucketing engine -/

theorem minHour_le : ∀ {ts : List Nat} {lo : Nat}, minHour ts = some lo →
    ∀ t ∈ ts, lo ≤ hourOf t := by
  intro ts
  induction ts with
  | nil => intro lo h; simp [minHour] at h
  | cons t ts ih =>
    intro lo h x hx
    rcases List.mem_cons.mp hx with rfl | hxs
    · cases hm : minHour ts with
      | none => simp [minHour, hm] at h; omega
      | some m => simp [minHour, hm] at h; omega
    · cases hm : minHour ts with
      | none =>
        cases ts with
        | nil => simp at hxs
        | cons a as => simp [minHour] at hm; cases hm2 : minHour as <;> simp [hm2] at hm
      | some m =>
        have hle := ih hm x hxs
        simp [minHour, hm] at h
        omega

theorem maxHour_ge : ∀ {ts : List Nat} {hi : Nat}, maxHour ts = some hi →
    ∀ t ∈ ts, hourOf t ≤ hi := by
  intro ts
  induction ts with
  | nil => intro hi h; simp [maxHour] at h
  | cons t ts ih =>
    intro hi h x hx
    rcases List.mem_cons.mp hx with rfl | hxs
    · cases hm : maxHour ts with
      | none => simp [maxHour, hm] at h; omega
      | some m => simp [maxHour, hm] at h; omega
    · cases hm : maxHour ts with
      | none =>
        cases ts with
        | nil => simp at hxs
        | cons a as => simp [maxHour] at hm; cases hm2 : maxHour as <;> simp [hm2] at hm
      | some m =>
        have hle := ih hm x hxs
        simp [maxHour, hm] at h
        omega

theorem minHour_isSome {ts : List Nat} (h : ts ≠ []) : ∃ lo, minHour ts = some lo := by
  cases ts with
  | nil => exact absurd rfl h
  | cons t ts => cases hm : minHour ts <;> simp [minHour, hm]

theorem maxHour_isSome {ts : List Nat} (h : ts ≠ []) : ∃ hi, maxHour ts = some hi := by
  cases ts with
  | nil => exact absurd rfl h
  | cons t ts => cases hm : maxHour ts <;> simp [maxHour, hm]

theorem withCumulative_ge (acc : Nat) :
    ∀ cs : List (Nat × Nat), ∀ b ∈ withCumulative acc cs, acc ≤ b.cumulative := by
  intro cs
  induction cs generalizing acc with
  | nil => intro b hb; simp [withCumulative] at hb
  | cons c rest ih =>
    intro b hb
    obtain ⟨h, cnt⟩ := c
    rcases List.mem_cons.mp hb with rfl | hbs
    · simp
    · have := ih (acc + cnt) b hbs
      omega

theorem withCumulative_sorted (acc : Nat) :
    ∀ cs : List (Nat × Nat),
      List.Sorted (fun a b => a ≤ b)
        ((withCumulative acc cs).map SalesBucket.cumulative) := by
  intro cs
  induction cs generalizing acc with
  | nil => simp [withCumulative]
  | cons c rest ih =>
    obtain ⟨h, cnt⟩ := c
    simp only [withCumulative, List.map_cons, List.sorted_cons]
    refine ⟨?_, ih (acc + cnt)⟩
    intro b hb
    rcases List.mem_map.mp hb with ⟨bk, hbk, rfl⟩
    exact withCumulative_ge (acc + cnt) rest bk hbk

theorem withCumulative_getLast (acc : Nat) :
    ∀ cs : List (Nat × Nat), cs ≠ [] →
      ((withCumulative acc cs).getLast?).map SalesBucket.cumulative =
        some (acc + (cs.map Prod.snd).sum) := by
  intro cs
  induction cs generalizing acc with
  | nil => intro h; exact absurd rfl h
  | cons c rest ih =>
    intro _
    obtain ⟨h, cnt⟩ := c
    cases rest with
    | nil => simp [withCumulative]
    | cons c2 rest2 =>
      have hne : (c2 :: rest2) ≠ ([] : List (Nat × Nat)) := by simp
      have hlast := ih (acc + cnt) hne
      simp only [withCumulative] at hlast ⊢
      rw [List.getLast?_cons_cons, hlast]
      simp only [List.map_cons, List.sum_cons]
      congr 1
      omega

theorem hourRange_nodup (lo n : Nat) : ((List.range n).map (fun i => lo + i)).Nodup :=
  (List.nodup_range n).map (fun a b h => by omega)

theorem hourRange_mem (lo n h : Nat) :
    h ∈ (List.range n).map (fun i => lo + i) ↔ lo ≤ h ∧ h < lo + n := by
  simp only [List.mem_map, List.mem_range]
  constructor
  · rintro ⟨i, hi, rfl⟩; omega
  · rintro ⟨h1, h2⟩; exact ⟨h - lo, by omega, by omega⟩

theorem countIn_range_sum {ts : List Nat} {lo hi : Nat}
    (hlo : minHour ts = some lo) (hhi : maxHour ts = some hi) :
    (((List.range (hi + 1 - lo)).map (fun i => lo + i)).map (countIn ts)).sum
      = ts.length := by
  have hcov : ∀ t ∈ ts, hourOf t ∈ (List.range (hi + 1 - lo)).map (fun i => lo + i) := by
    intro t ht
    have h1 := minHour_le hlo t ht
    have h2 := maxHour_ge hhi t ht
    exact (hourRange_mem lo _ _).mpr ⟨h1, by omega⟩
  have hperm := flatten_filter_perm hourOf ((List.range (hi + 1 - lo)).map (fun i => lo + i))
    ts (hourRange_nodup lo _) hcov
  have hlen := hperm.length_eq
  rw [List.length_flatten, List.map_map] at hlen
  exact hlen

/-! ## Claim theorems -/

/-- C1: for every non-empty input sequence of joined waitlist rows, the
grouping engine's output groups partition the valid input rows exactly:
the concatenation of all output waitlists is a permutation of the entries
of the rows surviving normalization (each valid row lands in exactly one
group, invalid rows in none), and the sum of `totalCount` over all groups
equals the number of valid input rows. -/
theorem c1_grouping_partitions (rows : List WaitlistRow) (_hne : rows ≠ []) :
    (((leaderboard rows).map EventGroup.waitlist).flatten).Perm
      ((rows.filter rowValid).map entryOf)
    ∧ ((leaderboard rows).map EventGroup.totalCount).sum
        = (rows.filter rowValid).length :=
  ⟨leaderboard_flatten_perm rows, leaderboard_count_sum rows⟩

/-- Witness for C1 at a concrete mixed input. -/
theorem c1_witness :
    (((leaderboard exRows).map EventGroup.waitlist).flatten).Perm
      ((exRows.filter rowValid).map entryOf)
    ∧ ((leaderboard exRows).map EventGroup.totalCount).sum
        = (exRows.filter rowValid).length :=
  c1_grouping_partitions exRows (by decide)

/-- C2: every `EventGroup` produced by the grouping engine satisfies
`totalCount = waitlist.length`. -/
theorem c2_totalCount_invariant (rows : List WaitlistRow) (g : EventGroup)
    (hg : g ∈ leaderboard rows) : g.totalCount = g.waitlist.length :=
  totalCount_eq_length_of_mem hg

/-- Witness for C2 at a concrete group of the sample input. -/
theorem c2_witness :
    (groupFor exRows "A").totalCount = (groupFor exRows "A").waitlist.length :=
  c2_totalCount_invariant exRows (groupFor exRows "A") (by decide)

/-- C3: the row normalizer resolves the nested `events` relation by taking
the first element of an array (dropping the row when the array is empty),
using a scalar object directly, and dropping the row when the relation is
absent or the resolved record lacks an id; a dropped row is excluded from
all downstream aggregation, and every case is handled totally (no error
is raised). -/
theorem c3_row_normalizer :
    resolveEventData (.rel_array []) = none
    ∧ (∀ (e : EventDetails) (t : List EventDetails),
        resolveEventData (.rel_array (e :: t)) = some e)
    ∧ (∀ e : EventDetails, resolveEventData (.rel_object e) = some e)
    ∧ resolveEventData .rel_null = none
    ∧ (∀ r : WaitlistRow, normalizeRow r = none ↔
        (r.event_id = none ∨ r.event_id = some "" ∨ resolveEventData r.events = none
          ∨ ∃ ed, resolveEventData r.events = some ed ∧ ed.id = ""))
    ∧ (∀ (l1 l2 : List WaitlistRow) (r : WaitlistRow), normalizeRow r = none →
        leaderboard (l1 ++ r :: l2) = leaderboard (l1 ++ l2)) := by
  refine ⟨rfl, fun e t => rfl, fun e => rfl, rfl, ?_, ?_⟩
  · intro r
    cases hid : r.event_id with
    | none => simp [normalizeRow, hid]
    | some eid =>
      by_cases he : eid = ""
      · subst he
        simp [normalizeRow, hid]
      · cases hev : resolveEventData r.events with
        | none => simp [normalizeRow, hid, he, hev]
        | some ed =>
          by_cases hED : ed.id = ""
          · simp [normalizeRow, hid, he, hev, hED]
          · simp [normalizeRow, hid, he, hev, hED]
  · intro l1 l2 r hr
    have hfold : groupByEvent (l1 ++ r :: l2) = groupByEvent (l1 ++ l2) := by
      simp only [groupByEvent, List.foldl_append, List.foldl_cons]
      rw [groupStep_invalid _ hr]
    simp [leaderboard, hfold]

/-- Witness for C3: dropping a concrete malformed row leaves the
aggregation unchanged. -/
theorem c3_witness :
    leaderboard (exRows ++ exBadRow :: []) = leaderboard (exRows ++ []) :=
  c3_row_normalizer.2.2.2.2.2 exRows [] exBadRow (by decide)

/-- C4: the grouping engine yields one group per distinct valid `eventId`
in first-occurrence order (`groupKeys` is the first-seen deduplication of
the valid rows' keys), and each group's waitlist consists of the entries
of the valid rows carrying its key as a filter of the input — hence in
the input sequence's relative order (a sublist; the engine never
re-sorts). -/
theorem c4_group_ordering (rows : List WaitlistRow) :
    (groupByEvent rows).map Prod.fst = groupKeys rows
    ∧ ∀ p ∈ groupByEvent rows,
        p.2.waitlist = (rowsFor rows p.1).map entryOf
        ∧ (rowsFor rows p.1).Sublist rows := by
  constructor
  · rw [groupByEvent_eq, List.map_map]
    exact List.map_id (groupKeys rows)
  · intro p hp
    rw [groupByEvent_eq] at hp
    rcases List.mem_map.mp hp with ⟨k, hk, rfl⟩
    exact ⟨by simp [groupFor], List.filter_sublist rows⟩

/-- Witness for C4 at a concrete keyed group of the sample input. -/
theorem c4_witness :
    ("A", groupFor exRows "A").2.waitlist
        = (rowsFor exRows ("A", groupFor exRows "A").1).map entryOf
    ∧ (rowsFor exRows ("A", groupFor exRows "A").1).Sublist exRows :=
  (c4_group_ordering exRows).2 ("A", groupFor exRows "A") (by decide)

/-- C5 counterexample: the 401 bodies do distinguish the two unauthorized
cases — an unauthenticated caller receives the message `Not authenticated`
while an authenticated non-admin receives `Not authorized`, and the two
messages differ. -/
theorem c5_counterexample :
    waitlistGETGrouped (verifyAdminRequest false none []) (.fetchRows [])
      = { status := 401, body := .errorBody "Not authenticated" }
    ∧ waitlistGETGrouped (verifyAdminRequest false (some "u@stanford.edu")
        [("u@stanford.edu", some "editor")]) (.fetchRows [])
      = { status := 401, body := .errorBody "Not authorized" }
    ∧ "Not authenticated" ≠ "Not authorized" :=
  ⟨by decide, by decide, by decide⟩

/-- C5 (amended): every unauthorized request yields HTTP 401 whose body
contains only the error field carrying the verification message, and that
message is `Not authenticated` for an unauthenticated caller or
`Not authorized` for an authenticated non-admin — the two cases are
distinguishable by the message. -/
theorem c5_unauthorized_response (ue : Bool) (em : Option String)
    (tbl : List (String × Option String)) (f : FetchOutcome) (err : String)
    (h : verifyAdminRequest ue em tbl = .unauthorized err) :
    waitlistGETGrouped (verifyAdminRequest ue em tbl) f
      = { status := 401, body := .errorBody err }
    ∧ (err = "Not authenticated" ∨ err = "Not authorized") := by
  refine ⟨by rw [h]; rfl, ?_⟩
  by_cases hc : (ue || em.getD "" = "") = true
  · simp [verifyAdminRequest, hc] at h
    exact Or.inl h.symm
  · cases hfind : (tbl.find? (fun p => p.1 = em.getD "")).map Prod.snd with
    | none =>
      simp [verifyAdminRequest, hc, hfind] at h
      exact Or.inr h.symm
    | some ors =>
      cases ors with
      | none =>
        simp [verifyAdminRequest, hc, hfind] at h
        exact Or.inr h.symm
      | some rs =>
        by_cases hmem : "admin" ∈ splitComma rs
        · simp [verifyAdminRequest, hc, hfind, hmem] at h
        · simp [verifyAdminRequest, hc, hfind, hmem] at h
          exact Or.inr h.symm

/-- Witness for the amended C5 at a concrete unauthenticated request. -/
theorem c5_witness :
    waitlistGETGrouped (verifyAdminRequest true none []) (.fetchRows [])
      = { status := 401, body := .errorBody "Not authenticated" }
    ∧ ("Not authenticated" = "Not authenticated"
        ∨ "Not authenticated" = "Not authorized") :=
  c5_unauthorized_response true none [] (.fetchRows []) "Not authenticated" (by decide)

/-- C6 counterexample: on authorization denial the API route does not
return an empty/default result set — it raises an HTTP 401 error response
to the caller. -/
theorem c6_counterexample :
    waitlistGETGrouped (verifyAdminRequest false none []) (.fetchRows [])
      = { status := 401, body := .errorBody "Not authenticated" }
    ∧ (401 : Nat) ≠ 200 :=
  ⟨by decide, by decide⟩

/-- C6 (amended): both call sites check authorization first, but only the
server page loader short-circuits with the empty/default result set on
denial; the API route instead returns a 401 error response carrying the
verification message. -/
theorem c6_denial_behavior :
    (∀ (err : String) (f : FetchOutcome),
      getInitialWaitlist (.unauthorized err) f = ([], true))
    ∧ (∀ (err : String) (f : FetchOutcome),
      waitlistGETGrouped (.unauthorized err) f
        = { status := 401, body := .errorBody err }) :=
  ⟨fun _ _ => rfl, fun _ _ => rfl⟩

/-- C7: for every input sequence of sale timestamps the bucket sequence's
cumulative values are monotonically non-decreasing in chronological
order, the final bucket's cumulative equals the total number of input
sale events, `totalTickets` always equals that total, and an empty input
yields an empty bucket sequence with `totalTickets = 0`. -/
theorem c7_sales_bucketing (ts : List Nat) :
    List.Sorted (fun a b => a ≤ b) ((salesBuckets ts).map SalesBucket.cumulative)
    ∧ (ts ≠ [] →
        ((salesBuckets ts).getLast?).map SalesBucket.cumulative = some ts.length)
    ∧ totalTickets ts = ts.length
    ∧ (ts = [] → salesBuckets ts = [] ∧ totalTickets ts = 0) := by
  have hlast : ts ≠ [] →
      ((salesBuckets ts).getLast?).map SalesBucket.cumulative = some ts.length := by
    intro hne
    rcases minHour_isSome hne with ⟨lo, hlo⟩
    rcases maxHour_isSome hne with ⟨hi, hhi⟩
    rcases List.exists_mem_of_ne_nil ts hne with ⟨t0, ht0⟩
    have h1 := minHour_le hlo t0 ht0
    have h2 := maxHour_ge hhi t0 ht0
    have hcs_ne : (((List.range (hi + 1 - lo)).map (fun i => lo + i)).map
        (fun h => (h, countIn ts h))) ≠ [] := by
      simp only [ne_eq, List.map_eq_nil_iff, List.range_eq_nil]
      omega
    simp only [salesBuckets, hlo, hhi]
    rw [withCumulative_getLast 0 _ hcs_ne]
    congr 1
    rw [List.map_map]
    have hsum := countIn_range_sum hlo hhi
    simpa using hsum
  refine ⟨?_, hlast, ?_, ?_⟩
  · cases hlo : minHour ts with
    | none => cases hhi : maxHour ts <;> simp [salesBuckets, hlo]
    | some lo =>
      cases hhi : maxHour ts with
      | none => simp [salesBuckets, hlo, hhi]
      | some hi =>
        simp only [salesBuckets, hlo, hhi]
        exact withCumulative_sorted 0 _
  · by_cases hne : ts = []
    · subst hne; rfl
    · have hl := hlast hne
      rw [totalTickets]
      cases hgl : (salesBuckets ts).getLast? with
      | none => rw [hgl] at hl; simp at hl
      | some b =>
        rw [hgl] at hl
        simpa using hl
  · intro hnil
    subst hnil
    exact ⟨rfl, rfl⟩

/-- Witness for C7 at the three sales of the spec's scenario (10:05,
10:40 and 11:02 on the first epoch day). -/
theorem c7_witness :
    ((salesBuckets [36300, 38400, 39720]).getLast?).map SalesBucket.cumulative
      = some ([36300, 38400, 39720] : List Nat).length :=
  (c7_sales_bucketing [36300, 38400, 39720]).2.1 (by decide)

/-- C8 counterexample: the client has no stale-response guard.  With the
filter for all events requested first and the filter `B` requested most
recently, the slower first response completes last and overwrites the
newer result: the displayed data is not that of the most recently
requested filter. -/
theorem c8_counterexample :
    (runEvents { displayed := [] }
      [ .startFetch "", .startFetch "B",
        .completeFetch "B" [demoGroup], .completeFetch "" [] ]).displayed
      ≠ [demoGroup] := by
  decide

/-- C8 (amended): the displayed result is that of whichever response
completes last (last-completed-wins): a completion unconditionally
overwrites the displayed data regardless of which request started more
recently. -/
theorem c8_last_completed_wins (s : ClientState) (evs : List ClientEvent)
    (flt : String) (res : List EventGroup) :
    (runEvents s (evs ++ [.completeFetch flt res])).displayed = res := by
  simp [runEvents, List.foldl_append, applyEvent]

/-- C9: the admin verification authorizes exactly the caller that is
authenticated with a non-empty email whose roles record exists with a
non-null roles string containing the exact comma-separated token `admin`;
in particular a roles string whose only occurrence of `admin` is inside
the longer token `administrator` does not authorize, while
`administrator,admin` does. -/
theorem c9_admin_exact_token :
    (∀ (ue : Bool) (em : Option String) (tbl : List (String × Option String)),
      isAuthorized (verifyAdminRequest ue em tbl) = true ↔
        ue = false ∧ ∃ e, em = some e ∧ e ≠ "" ∧
          ∃ rs, (tbl.find? (fun p => p.1 = e)).map Prod.snd = some (some rs) ∧
            "admin" ∈ splitComma rs)
    ∧ isAuthorized (verifyAdminRequest false (some "u@stanford.edu")
        [("u@stanford.edu", some "administrator")]) = false
    ∧ isAuthorized (verifyAdminRequest false (some "u@stanford.edu")
        [("u@stanford.edu", some "administrator,admin")]) = true := by
  refine ⟨?_, by decide, by decide⟩
  intro ue em tbl
  constructor
  · intro hAuth
    by_cases hc : (ue || em.getD "" = "") = true
    · rw [verifyAdminRequest, if_pos hc] at hAuth
      simp [isAuthorized] at hAuth
    · have hc2 := hc
      simp only [Bool.or_eq_true, not_or, Bool.not_eq_true, decide_eq_true_eq] at hc2
      obtain ⟨hue, hgd⟩ := hc2
      cases em with
      | none => simp at hgd
      | some e =>
        simp only [Option.getD_some] at hgd
        rw [verifyAdminRequest, if_neg hc] at hAuth
        simp only [Option.getD_some] at hAuth
        cases hfind : (tbl.find? (fun p => p.1 = e)).map Prod.snd with
        | none =>
          rw [hfind] at hAuth
          simp [isAuthorized] at hAuth
        | some ors =>
          cases ors with
          | none =>
            rw [hfind] at hAuth
            simp [isAuthorized] at hAuth
          | some rs =>
            rw [hfind] at hAuth
            by_cases hmem : "admin" ∈ splitComma rs
            · exact ⟨hue, e, rfl, hgd, rs, hfind, hmem⟩
            · simp [isAuthorized, hmem] at hAuth
  · rintro ⟨hue, e, rfl, he, rs, hfind, hmem⟩
    subst hue
    rw [verifyAdminRequest, if_neg (by simp [he])]
    simp only [Option.getD_some]
    rw [hfind]
    simp [isAuthorized, hmem]

/-- C10: every group in the grouped output has a non-empty waitlist and
`totalCount ≥ 1` — groups are created only when an entry is pushed, so no
empty group ever appears in the leaderboard. -/
theorem c10_groups_nonempty (rows : List WaitlistRow) (g : EventGroup)
    (hg : g ∈ leaderboard rows) : g.waitlist ≠ [] ∧ 1 ≤ g.totalCount := by
  refine ⟨waitlist_ne_nil_of_mem hg, ?_⟩
  rw [totalCount_eq_length_of_mem hg]
  exact List.length_pos.mpr (waitlist_ne_nil_of_mem hg)

/-- Witness for C10 at a concrete group of the sample input. -/
theorem c10_witness :
    (groupFor exRows "B").waitlist ≠ [] ∧ 1 ≤ (groupFor exRows "B").totalCount :=
  c10_groups_nonempty exRows (groupFor exRows "B") (by decide)
